import Mathlib

/-!
Verification of the content aggregation engine of `src/src/App.tsx`
(the "channel feed" application).

The shallow embedding below translates the aggregation, classification,
batching, filtering, caching and registry logic of the source into pure
Lean functions:

* timestamps (`Date.now()`, `new Date(publishedAt).getTime()`) are
  modelled as integers (milliseconds);
* the JavaScript `Map` used by the merge in `addChannel` and the
  `Record<string, string>` used by the batched duration fetch are
  modelled as association lists with JavaScript `Map.set` semantics
  (an existing key is overwritten in place, a fresh key is appended);
* `Array.prototype.sort` with the comparator
  `(a, b) => new Date(b.publishedAt).getTime() - new Date(a.publishedAt).getTime()`
  is modelled as a stable insertion sort descending on the published
  timestamp;
* a `fetch` call that throws (rejected promise) is modelled with
  `Except`; an HTTP response whose JSON body carries no `items` field is
  modelled as `Option.none` on the items payload;
* fields of the `Video` / `CommunityPost` union that no claim touches
  (title, thumbnail, view count, free-text content) are omitted from
  `FeedItem`; the fields relevant to keys, sorting and filtering
  (`id`, `channelId`, `channelName`, `publishedAt`, `type`) are kept.
-/

/-- The `type` discriminant of the `Video | CommunityPost` union:
`'longForm' | 'shorts' | 'community'`. -/
inductive CKind where
  | longForm
  | shorts
  | community
deriving DecidableEq

/-- The string a content kind interpolates to in a template literal,
used by `buildVideoKey`. -/
def kindLabel : CKind → String
  | .longForm => "longForm"
  | .shorts => "shorts"
  | .community => "community"

/-- A feed item: the fields of `Video` / `CommunityPost` that the
aggregation logic reads.  `pubTime` stands for
`new Date(item.publishedAt).getTime()`. -/
structure FeedItem where
  id : String
  channelId : String
  channelName : String
  pubTime : Int
  kind : CKind
deriving DecidableEq

/-- The function `buildVideoKey` (App.tsx:105-107):
the template literal `${item.type}-${item.channelId}-${item.id}`. -/
def buildVideoKey (item : FeedItem) : String :=
  kindLabel item.kind ++ "-" ++ item.channelId ++ "-" ++ item.id

/-- The composite key named by the specification:
(kind, channel identifier, item id). -/
def compositeKey (item : FeedItem) : CKind × String × String :=
  (item.kind, item.channelId, item.id)

/-- JavaScript `Map.set` / object property assignment on an association
list: an existing key keeps its position and gets the new value, a fresh
key is appended at the end. -/
def assocSet {α : Type} : List (String × α) → String → α → List (String × α)
  | [], k, v => [(k, v)]
  | (k', v') :: rest, k, v =>
      if k' = k then (k, v) :: rest else (k', v') :: assocSet rest k v

/-- JavaScript `Map.get` / property lookup on an association list. -/
def assocGet {α : Type} : List (String × α) → String → Option α
  | [], _ => none
  | (k', v') :: rest, k => if k' = k then some v' else assocGet rest k

/-- Stable insertion (descending by `pubTime`) of one item into an
already sorted list: the item goes in front of the first element whose
timestamp is not larger, which is exactly where the stable JavaScript
`sort((a, b) => bt - at)` places it. -/
def insertDesc (a : FeedItem) : List FeedItem → List FeedItem
  | [] => [a]
  | b :: l => if b.pubTime ≤ a.pubTime then a :: b :: l else b :: insertDesc a l

/-- The call `array.sort((a, b) => new Date(b.publishedAt).getTime() - new Date(a.publishedAt).getTime())`,
modelled as a stable insertion sort descending on `pubTime`. -/
def sortDesc (l : List FeedItem) : List FeedItem :=
  l.foldr insertDesc []

/-- The sortedness invariant of a feed snapshot: non-increasing in the
published timestamp. -/
def SortedDesc (l : List FeedItem) : Prop :=
  List.Pairwise (fun a b => b.pubTime ≤ a.pubTime) l

/-- One `nextMap.set(buildVideoKey(item), item)` call for one item. -/
def feedMapInsert (m : List (String × FeedItem)) (it : FeedItem) :
    List (String × FeedItem) :=
  assocSet m (buildVideoKey it) it

/-- Folding a list of items into a key → item map; used both for
`new Map(prev.map(item => [buildVideoKey(item), item]))` (the seed) and
for the `for (const item of newVideos) nextMap.set(...)` loop. -/
def feedMapOfList (seed : List (String × FeedItem)) (items : List FeedItem) :
    List (String × FeedItem) :=
  items.foldl feedMapInsert seed

/-- The merge in `addChannel` (App.tsx:382-389): seed a map with the
previous feed, overwrite/insert every newly fetched item by its video
key, then sort the map's values descending by published timestamp. -/
def mergeVideos (prevItems fetched : List FeedItem) : List FeedItem :=
  sortDesc ((feedMapOfList (feedMapOfList [] prevItems) fetched).map Prod.snd)

/-- The items a channel contributes to a full refresh: the fetched list
when `fetchChannelVideos` resolved, nothing when it threw (the
`catch` in the `for` loop of `fetchVideos`, App.tsx:437-444). -/
def channelResultItems (r : Except Unit (List FeedItem)) : List FeedItem :=
  match r with
  | .ok l => l
  | .error _ => []

/-- The function `fetchVideos` (App.tsx:428-449): push every successfully fetched
channel's items into one array (a thrown channel contributes nothing),
sort the array descending by published timestamp, and replace the feed
with it wholesale. -/
def fetchVideosModel (results : List (Except Unit (List FeedItem))) : List FeedItem :=
  sortDesc (results.map channelResultItems).flatten

/-- The last item of `items` whose video key is `k` (the
"most-recently-merged" item for that key), phrased as the same left
fold a sequence of `Map.set` calls performs. -/
def lastStep (k : String) (acc : Option FeedItem) (it : FeedItem) : Option FeedItem :=
  if buildVideoKey it = k then some it else acc

/-- The last item of `items` carrying video key `k`, if any. -/
def lastWithKey (items : List FeedItem) (k : String) : Option FeedItem :=
  items.foldl (lastStep k) none

/-- The list of characters after the first occurrence of `"PT"` in the
input, if any: where the JavaScript regex
`/PT(?:(\d+)M)?(?:(\d+)S)?/` anchors its (always-successful, since both
groups are optional) leftmost match.  `none` models a `null` result of
`String.prototype.match`. -/
def ptSuffix : List Char → Option (List Char)
  | [] => none
  | [_] => none
  | a :: b :: rest =>
      if a = 'P' ∧ b = 'T' then some rest else ptSuffix (b :: rest)

/-- The value `parseInt` yields on a non-empty digit string. -/
def digitsVal (ds : List Char) : Nat :=
  ds.foldl (fun n c => n * 10 + (c.toNat - '0'.toNat)) 0

/-- One optional regex group `(?:(\d+)X)?` at the current position: a
non-empty run of digits immediately followed by the marker character
yields the digit value and the rest of the input; anything else makes
the optional group match nothing. -/
def parseNumThen (marker : Char) (l : List Char) : Option (Nat × List Char) :=
  let ds := l.takeWhile Char.isDigit
  let rest := l.dropWhile Char.isDigit
  if ds.isEmpty then none
  else
    match rest with
    | m :: r => if m = marker then some (digitsVal ds, r) else none
    | [] => none

/-- The match `durationStr.match(/PT(?:(\d+)M)?(?:(\d+)S)?/)`: `none` when the
string contains no `"PT"`, otherwise the two optional capture groups
(minutes, seconds). -/
def durationGroups (s : String) : Option (Option Nat × Option Nat) :=
  (ptSuffix s.data).map fun rest =>
    match parseNumThen 'M' rest with
    | some (mv, r) => (some mv, (parseNumThen 'S' r).map Prod.fst)
    | none => (none, (parseNumThen 'S' rest).map Prod.fst)

/-- The classification block of `fetchChannelVideos` (App.tsx:256-274):
`duration`/`type` start as `'Video'`/`'longForm'`; when a duration
string is available (and non-empty, since an empty string is falsy),
minutes and seconds are read from the regex match (each defaulting to
`'0'` when its group is absent or the match is `null`), and a total of
at most 60 seconds switches the item to `'Short'`/`'shorts'`.
The `none` input covers both a missing `videoId` and a missing entry in
`videoDurations`. -/
def classifyDuration (durationStr : Option String) : String × CKind :=
  match durationStr with
  | none => ("Video", .longForm)
  | some s =>
      if s.isEmpty then ("Video", .longForm)
      else
        let minutes := ((durationGroups s).bind Prod.fst).getD 0
        let seconds := ((durationGroups s).bind Prod.snd).getD 0
        if minutes * 60 + seconds ≤ 60 then ("Short", .shorts)
        else ("Video", .longForm)

/-- The total seconds the classification block computes for a duration
string: `minutes * 60 + seconds` of the regex groups, zero when a group
is absent or the pattern does not match at all. -/
def specTotalSeconds (s : String) : Nat :=
  ((durationGroups s).bind Prod.fst).getD 0 * 60
    + ((durationGroups s).bind Prod.snd).getD 0

/-- Fuel-driven chunking used to model the batch loop
`for (let i = 0; i < videoIds.length; i += batchSize)` with
`batchSize = 50` (App.tsx:232-234); the fuel (instantiated with the
list's length) only makes the recursion structural. -/
def chunksOf50Fuel : Nat → List String → List (List String)
  | 0, _ => []
  | _, [] => []
  | fuel + 1, l => l.take 50 :: chunksOf50Fuel fuel (l.drop 50)

/-- The successive `videoIds.slice(i, i + batchSize)` batches. -/
def chunksOf50 (l : List String) : List (List String) :=
  chunksOf50Fuel l.length l

/-- One upstream call of the batched duration fetch, from the batch's
ids: `.error` models a rejected `fetch`/`json()` promise, `.ok none` a
response whose body has no `items` array, `.ok (some entries)` a
response with `items`, each entry giving `(video.id,
video.contentDetails.duration)`. -/
def BatchApi : Type :=
  List String → Except Unit (Option (List (String × String)))

/-- The batch loop of `fetchChannelVideos` (App.tsx:232-245): issue one
request per batch in order, skip a batch whose response has no `items`,
fold each returned entry into `videoDurations` by property assignment;
a thrown request propagates (there is no try/catch inside the loop).
The second component counts the requests issued. -/
def runBatches (api : BatchApi) :
    List (List String) → List (String × String) → Nat →
      Except Unit (List (String × String) × Nat)
  | [], acc, n => .ok (acc, n)
  | b :: bs, acc, n =>
      match api b with
      | .error e => .error e
      | .ok none => runBatches api bs acc (n + 1)
      | .ok (some entries) =>
          runBatches api bs
            (entries.foldl (fun m p => assocSet m p.1 p.2) acc) (n + 1)

/-- The whole batched duration fetch for a list of video ids. -/
def fetchDurations (api : BatchApi) (videoIds : List String) :
    Except Unit (List (String × String) × Nat) :=
  runBatches api (chunksOf50 videoIds) [] 0

/-- The persisted `cachedVideos` value: `{ videos, timestamp }`. -/
structure CachedData where
  videos : List FeedItem
  timestamp : Int
deriving DecidableEq

/-- The `videos` state initializer (App.tsx:76-87): return the cached
snapshot when its capture timestamp is newer than
`Date.now() - 24 * 60 * 60 * 1000`, otherwise the empty feed. -/
def cacheRead (saved : Option CachedData) (now : Int) : List FeedItem :=
  match saved with
  | none => []
  | some d => if d.timestamp > now - 86400000 then d.videos else []

/-- The caching effect (App.tsx:146-153): persist `{ videos,
timestamp: Date.now() }` when the feed is non-empty, leave the stored
value untouched otherwise. -/
def cacheWrite (store : Option CachedData) (videos : List FeedItem) (now : Int) :
    Option CachedData :=
  if videos.length > 0 then some ⟨videos, now⟩ else store

/-- The playlist-item time filter (App.tsx:252-254): the item survives
the loop unless `timeRangeDays !== 0 && publishedAt < cutoffDate`.
`cutoff` stands for the computed `cutoffDate` (now minus
`timeRangeDays` days), `pub` for the item's published time. -/
def timeFilterVideo (timeRangeDays : Nat) (cutoff pub : Int) : Bool :=
  !(timeRangeDays != 0 && decide (pub < cutoff))

/-- The community-post time filter (App.tsx:305):
`timeRangeDays === 0 || itemDate >= cutoffDate`. -/
def timeFilterCommunity (timeRangeDays : Nat) (cutoff pub : Int) : Bool :=
  timeRangeDays == 0 || decide (cutoff ≤ pub)

/-- A channel's per-content-type preferences. -/
structure ContentTypes where
  longForm : Bool
  shorts : Bool
  community : Bool
deriving DecidableEq

/-- A registry entry (the `Channel` interface). -/
structure Channel where
  id : String
  name : String
  thumbnail : String
  uploadsPlaylistId : String
  contentTypes : ContentTypes
deriving DecidableEq

/-- The registry update performed by `addChannel` (App.tsx:350-397):
build the new entry with default preferences `{ longForm: true,
shorts: true, community: false }`; if `channels.find(c => c.id ===
newChannel.id)` hits, nothing at all happens to the registry (no error
value exists on this path), otherwise the entry is appended. -/
def addChannelRegistry (channels : List Channel)
    (cid cname cthumb cuploads : String) : List Channel :=
  let newChannel : Channel := ⟨cid, cname, cthumb, cuploads, ⟨true, true, false⟩⟩
  match channels.find? (fun c => c.id == newChannel.id) with
  | some _ => channels
  | none => channels ++ [newChannel]

/-- The id of a community-post feed item (App.tsx:307):
`item.snippet.description?.substring(0, 50) || item.id` — the first 50
characters of the description when that prefix is a truthy (non-empty)
string, the activity's own id otherwise. -/
def communityPostId (description : Option String) (nativeId : String) : String :=
  match description with
  | none => nativeId
  | some d =>
      match d.data.take 50 with
      | [] => nativeId
      | c :: cs => String.mk (c :: cs)

theorem insertDesc_perm (a : FeedItem) (l : List FeedItem) :
    List.Perm (insertDesc a l) (a :: l) := by
  induction l with
  | nil => simp [insertDesc]
  | cons b l ih =>
      simp only [insertDesc]
      split
      · exact List.Perm.refl _
      · exact (ih.cons b).trans (List.Perm.swap a b l)

theorem sortDesc_perm (l : List FeedItem) : List.Perm (sortDesc l) l := by
  induction l with
  | nil => simp [sortDesc]
  | cons a l ih =>
      simpa [sortDesc] using (insertDesc_perm a (sortDesc l)).trans (ih.cons a)

theorem insertDesc_sorted (a : FeedItem) (l : List FeedItem)
    (h : SortedDesc l) : SortedDesc (insertDesc a l) := by
  induction l with
  | nil => simp [insertDesc, SortedDesc]
  | cons b l ih =>
      simp only [insertDesc]
      rcases List.pairwise_cons.mp h with ⟨hb, hl⟩
      split
      · rename_i hba
        refine List.pairwise_cons.mpr ⟨?_, h⟩
        intro x hx
        rcases List.mem_cons.mp hx with rfl | hx
        · exact hba
        · exact le_trans (hb x hx) hba
      · rename_i hba
        refine List.pairwise_cons.mpr ⟨?_, ih hl⟩
        intro x hx
        rcases List.mem_cons.mp ((insertDesc_perm a l).mem_iff.mp hx) with rfl | hx
        · omega
        · exact hb x hx

theorem sortDesc_sorted (l : List FeedItem) : SortedDesc (sortDesc l) := by
  induction l with
  | nil => simp [sortDesc, SortedDesc]
  | cons a l ih => exact insertDesc_sorted a (sortDesc l) ih

theorem assocGet_assocSet {α : Type} (m : List (String × α)) (k k' : String) (v : α) :
    assocGet (assocSet m k v) k' = if k = k' then some v else assocGet m k' := by
  induction m with
  | nil => simp [assocSet, assocGet]
  | cons p m ih =>
      obtain ⟨k0, v0⟩ := p
      simp only [assocSet]
      by_cases h0 : k0 = k
      · subst h0
        simp only [if_pos rfl, assocGet]
        by_cases h1 : k0 = k'
        · subst h1
          simp
        · simp [h1]
      · simp only [if_neg h0, assocGet]
        by_cases h1 : k0 = k'
        · subst h1
          have hkk : ¬k = k0 := fun h => h0 h.symm
          simp [hkk]
        · simp [h1, ih]

theorem mem_keys_assocSet {α : Type} (m : List (String × α)) (k k' : String) (v : α) :
    k' ∈ (assocSet m k v).map Prod.fst ↔ k' ∈ m.map Prod.fst ∨ k' = k := by
  induction m with
  | nil => simp [assocSet]
  | cons p m ih =>
      obtain ⟨k0, v0⟩ := p
      simp only [assocSet]
      by_cases h0 : k0 = k
      · subst h0
        rw [if_pos rfl]
        simp only [List.map_cons, List.mem_cons]
        tauto
      · rw [if_neg h0]
        simp only [List.map_cons, List.mem_cons, ih]
        tauto

theorem keys_nodup_assocSet {α : Type} (m : List (String × α)) (k : String) (v : α)
    (h : (m.map Prod.fst).Nodup) : ((assocSet m k v).map Prod.fst).Nodup := by
  induction m with
  | nil => simp [assocSet]
  | cons p m ih =>
      obtain ⟨k0, v0⟩ := p
      simp only [List.map_cons, List.nodup_cons] at h
      by_cases h0 : k0 = k
      · subst h0
        simpa [assocSet, List.nodup_cons] using h
      · simp only [assocSet, if_neg h0, List.map_cons, List.nodup_cons]
        refine ⟨?_, ih h.2⟩
        intro hmem
        rcases (mem_keys_assocSet m k k0 v).mp hmem with hin | rfl
        · exact h.1 hin
        · exact h0 rfl

theorem assocSet_of_not_mem {α : Type} (m : List (String × α)) (k : String) (v : α)
    (h : k ∉ m.map Prod.fst) : assocSet m k v = m ++ [(k, v)] := by
  induction m with
  | nil => simp [assocSet]
  | cons p m ih =>
      obtain ⟨k0, v0⟩ := p
      simp only [List.map_cons, List.mem_cons] at h
      push_neg at h
      have hk : ¬k0 = k := fun hk => h.1 hk.symm
      simp [assocSet, hk, ih h.2]

theorem assocGet_mem_values {α : Type} (m : List (String × α)) (k : String) (v : α)
    (h : assocGet m k = some v) : v ∈ m.map Prod.snd := by
  induction m with
  | nil => simp [assocGet] at h
  | cons p m ih =>
      obtain ⟨k0, v0⟩ := p
      simp only [assocGet] at h
      by_cases h0 : k0 = k
      · rw [if_pos h0] at h
        injection h with h
        simp [h]
      · rw [if_neg h0] at h
        simp [ih h]

/-- The invariant tying each stored pair's key to its item. -/
def feedMapWF (m : List (String × FeedItem)) : Prop :=
  ∀ p ∈ m, p.1 = buildVideoKey p.2

theorem feedMapWF_assocSet (m : List (String × FeedItem)) (it : FeedItem)
    (h : feedMapWF m) : feedMapWF (feedMapInsert m it) := by
  unfold feedMapInsert
  induction m with
  | nil =>
      intro p hp
      simp [assocSet] at hp
      simp [hp]
  | cons q m ih =>
      obtain ⟨k0, v0⟩ := q
      have hq : k0 = buildVideoKey v0 := h ⟨k0, v0⟩ (List.mem_cons_self _ _)
      have hm : feedMapWF m := fun p hp => h p (List.mem_cons_of_mem _ hp)
      intro p hp
      simp only [assocSet] at hp
      by_cases h0 : k0 = buildVideoKey it
      · rw [if_pos h0] at hp
        rcases List.mem_cons.mp hp with rfl | hp
        · rfl
        · exact h p (List.mem_cons_of_mem _ hp)
      · rw [if_neg h0] at hp
        rcases List.mem_cons.mp hp with rfl | hp
        · exact hq
        · exact ih hm p hp

theorem feedMapWF_ofList (seed : List (String × FeedItem)) (items : List FeedItem)
    (h : feedMapWF seed) : feedMapWF (feedMapOfList seed items) := by
  induction items generalizing seed with
  | nil => exact h
  | cons it items ih => exact ih _ (feedMapWF_assocSet seed it h)

theorem feedMapOfList_keys_nodup (seed : List (String × FeedItem))
    (items : List FeedItem) (h : (seed.map Prod.fst).Nodup) :
    ((feedMapOfList seed items).map Prod.fst).Nodup := by
  induction items generalizing seed with
  | nil => exact h
  | cons it items ih => exact ih _ (keys_nodup_assocSet seed _ it h)

theorem keys_eq_map_key_values (m : List (String × FeedItem)) (h : feedMapWF m) :
    m.map Prod.fst = (m.map Prod.snd).map buildVideoKey := by
  rw [List.map_map]
  exact List.map_congr_left h

theorem assocGet_feedMapOfList (items : List FeedItem)
    (seed : List (String × FeedItem)) (k : String) :
    assocGet (feedMapOfList seed items) k =
      items.foldl (lastStep k) (assocGet seed k) := by
  induction items generalizing seed with
  | nil => rfl
  | cons it items ih =>
      show assocGet (feedMapOfList (feedMapInsert seed it) items) k = _
      rw [ih]
      have : assocGet (feedMapInsert seed it) k = lastStep k (assocGet seed k) it := by
        unfold feedMapInsert lastStep
        exact assocGet_assocSet seed (buildVideoKey it) k it
      rw [this]
      rfl

theorem foldl_lastStep_isSome (items : List FeedItem) (k : String)
    (acc : Option FeedItem) (h : acc.isSome) :
    (items.foldl (lastStep k) acc).isSome := by
  induction items generalizing acc with
  | nil => exact h
  | cons it items ih =>
      refine ih (lastStep k acc it) ?_
      unfold lastStep
      split
      · rfl
      · exact h

theorem foldl_lastStep_isSome_of_mem (items : List FeedItem) (k : String)
    (acc : Option FeedItem) (x : FeedItem) (hx : x ∈ items)
    (hk : buildVideoKey x = k) : (items.foldl (lastStep k) acc).isSome := by
  induction items generalizing acc with
  | nil => cases hx
  | cons it items ih =>
      rcases List.mem_cons.mp hx with rfl | hx
      · refine foldl_lastStep_isSome items k _ ?_
        simp [lastStep, hk]
      · exact ih _ hx

theorem foldl_lastStep_key (items : List FeedItem) (k : String)
    (acc : Option FeedItem) (hacc : ∀ z, acc = some z → buildVideoKey z = k)
    (z : FeedItem) (hz : items.foldl (lastStep k) acc = some z) :
    buildVideoKey z = k := by
  induction items generalizing acc with
  | nil => exact hacc z hz
  | cons it items ih =>
      refine ih (lastStep k acc it) ?_ hz
      intro y hy
      unfold lastStep at hy
      by_cases hit : buildVideoKey it = k
      · rw [if_pos hit] at hy
        injection hy with hy
        rw [← hy]
        exact hit
      · rw [if_neg hit] at hy
        exact hacc y hy

theorem assocGet_of_mem_values (m : List (String × FeedItem))
    (hwf : feedMapWF m) (hnd : (m.map Prod.fst).Nodup) (it : FeedItem)
    (hit : it ∈ m.map Prod.snd) : assocGet m (buildVideoKey it) = some it := by
  induction m with
  | nil => cases hit
  | cons p m ih =>
      obtain ⟨k0, v0⟩ := p
      have hk0 : k0 = buildVideoKey v0 := hwf ⟨k0, v0⟩ (List.mem_cons_self _ _)
      have hwm : feedMapWF m := fun q hq => hwf q (List.mem_cons_of_mem _ hq)
      simp only [List.map_cons, List.nodup_cons] at hnd
      rcases List.mem_cons.mp hit with rfl | hit
      · show assocGet _ (buildVideoKey it) = some it
        unfold assocGet
        rw [if_pos hk0]
      · have hkm : buildVideoKey it ∈ m.map Prod.fst := by
          rcases List.mem_map.mp hit with ⟨q, hq, rfl⟩
          rw [← hwm q hq]
          exact List.mem_map_of_mem Prod.fst hq
        have hne : ¬k0 = buildVideoKey it := by
          intro h
          rw [h] at hnd
          exact hnd.1 hkm
        unfold assocGet
        rw [if_neg hne]
        exact ih hwm hnd.2 hit

theorem feedMapOfList_values_fresh (items : List FeedItem)
    (seed : List (String × FeedItem))
    (hnd : (items.map buildVideoKey).Nodup)
    (hfresh : ∀ x ∈ items, buildVideoKey x ∉ seed.map Prod.fst) :
    (feedMapOfList seed items).map Prod.fst
        = seed.map Prod.fst ++ items.map buildVideoKey
    ∧ (feedMapOfList seed items).map Prod.snd = seed.map Prod.snd ++ items := by
  induction items generalizing seed with
  | nil => simp [feedMapOfList]
  | cons it items ih =>
      simp only [List.map_cons, List.nodup_cons] at hnd
      have hfit : buildVideoKey it ∉ seed.map Prod.fst :=
        hfresh it (List.mem_cons_self _ _)
      have hins : feedMapInsert seed it = seed ++ [(buildVideoKey it, it)] :=
        assocSet_of_not_mem seed (buildVideoKey it) it hfit
      have hstep : ∀ x ∈ items,
          buildVideoKey x ∉ (feedMapInsert seed it).map Prod.fst := by
        intro x hx
        rw [hins]
        simp only [List.map_append, List.mem_append, List.map_cons, List.map_nil,
          List.mem_cons]
        rintro (hmem | hmem)
        · exact hfresh x (List.mem_cons_of_mem _ hx) hmem
        · rcases hmem with heq | hfalse
          · exact hnd.1 (heq ▸ List.mem_map_of_mem buildVideoKey hx)
          · cases hfalse
      have := ih (feedMapInsert seed it) hnd.2 hstep
      constructor
      · show (feedMapOfList (feedMapInsert seed it) items).map Prod.fst = _
        rw [this.1, hins]
        simp
      · show (feedMapOfList (feedMapInsert seed it) items).map Prod.snd = _
        rw [this.2, hins]
        simp

/-- Concrete items used by witnesses and counterexamples. -/
def itemA : FeedItem := ⟨"vidA", "chan1", "Channel One", 1000, .longForm⟩

/-- Same composite key as `itemA` but from a newer fetch (later
published timestamp as returned by the newer upstream state). -/
def itemADup : FeedItem := ⟨"vidA", "chan1", "Channel One", 2000, .longForm⟩

def itemB1 : FeedItem := ⟨"vidB1", "chan2", "Channel Two", 100, .longForm⟩

def itemB2 : FeedItem := ⟨"vidB2", "chan2", "Channel Two", 300, .shorts⟩

def itemB3 : FeedItem := ⟨"vidB3", "chan2", "Channel Two", 200, .community⟩

theorem compositeKey_eq_buildVideoKey_eq (a b : FeedItem)
    (h : compositeKey a = compositeKey b) : buildVideoKey a = buildVideoKey b := by
  unfold compositeKey at h
  simp only [Prod.mk.injEq] at h
  unfold buildVideoKey
  rw [h.1, h.2.1, h.2.2]

theorem feedMapWF_nil : feedMapWF [] :=
  fun p hp => absurd hp (List.not_mem_nil p)

/-- C1.  For every merge of newly fetched items into the feed
(`addChannel`'s map-based merge), deduplication is by the composite key
(kind, channel identifier, item id): the merged feed holds at most one
item per composite key, every surviving item is the most-recently-merged
item with its key (the last one the `Map.set` sequence wrote, i.e. newer
fetch overwrites older in place), and every merged key is represented in
the output. -/
theorem mergeVideos_key_unique (prevItems fetched : List FeedItem) :
    List.Pairwise (fun a b => compositeKey a ≠ compositeKey b)
        (mergeVideos prevItems fetched)
    ∧ (∀ it ∈ mergeVideos prevItems fetched,
        lastWithKey (prevItems ++ fetched) (buildVideoKey it) = some it)
    ∧ ∀ x ∈ prevItems ++ fetched,
        ∃ it ∈ mergeVideos prevItems fetched, buildVideoKey it = buildVideoKey x := by
  have hm : feedMapOfList (feedMapOfList [] prevItems) fetched
      = feedMapOfList [] (prevItems ++ fetched) := by
    unfold feedMapOfList
    rw [List.foldl_append]
  have hwf : feedMapWF (feedMapOfList (feedMapOfList [] prevItems) fetched) :=
    feedMapWF_ofList _ fetched (feedMapWF_ofList _ prevItems feedMapWF_nil)
  have hnd : ((feedMapOfList (feedMapOfList [] prevItems) fetched).map Prod.fst).Nodup :=
    feedMapOfList_keys_nodup _ fetched
      (feedMapOfList_keys_nodup _ prevItems (by simp))
  have hperm : List.Perm (mergeVideos prevItems fetched)
      ((feedMapOfList (feedMapOfList [] prevItems) fetched).map Prod.snd) :=
    sortDesc_perm _
  have hget : ∀ k, assocGet (feedMapOfList (feedMapOfList [] prevItems) fetched) k
      = lastWithKey (prevItems ++ fetched) k := by
    intro k
    rw [hm]
    exact assocGet_feedMapOfList (prevItems ++ fetched) [] k
  refine ⟨?_, ?_, ?_⟩
  · have hvk : ((feedMapOfList (feedMapOfList [] prevItems) fetched).map Prod.snd).map
        buildVideoKey
        = (feedMapOfList (feedMapOfList [] prevItems) fetched).map Prod.fst :=
      (keys_eq_map_key_values _ hwf).symm
    have hnodup : ((mergeVideos prevItems fetched).map buildVideoKey).Nodup := by
      refine ((hperm.map buildVideoKey).nodup_iff).mpr ?_
      rw [hvk]
      exact hnd
    have hpw : List.Pairwise (fun a b => buildVideoKey a ≠ buildVideoKey b)
        (mergeVideos prevItems fetched) := List.pairwise_map.mp hnodup
    exact hpw.imp fun hne heq => hne (compositeKey_eq_buildVideoKey_eq _ _ heq)
  · intro it hit
    have hval : it ∈ (feedMapOfList (feedMapOfList [] prevItems) fetched).map Prod.snd :=
      hperm.mem_iff.mp hit
    have := assocGet_of_mem_values _ hwf hnd it hval
    rw [hget (buildVideoKey it)] at this
    exact this
  · intro x hx
    have hs : (lastWithKey (prevItems ++ fetched) (buildVideoKey x)).isSome :=
      foldl_lastStep_isSome_of_mem (prevItems ++ fetched) _ none x hx rfl
    obtain ⟨y, hy⟩ := Option.isSome_iff_exists.mp hs
    have hky : buildVideoKey y = buildVideoKey x := by
      refine foldl_lastStep_key (prevItems ++ fetched) _ none ?_ y hy
      intro z hz
      cases hz
    have hgety : assocGet (feedMapOfList (feedMapOfList [] prevItems) fetched)
        (buildVideoKey x) = some y := by
      rw [hget]
      exact hy
    have hyval : y ∈ (feedMapOfList (feedMapOfList [] prevItems) fetched).map Prod.snd :=
      assocGet_mem_values _ _ y hgety
    exact ⟨y, hperm.mem_iff.mpr hyval, hky⟩

/-- Witness for C1 at a concrete merge: the incoming `itemADup` shares
`itemA`'s composite key, and the surviving occurrence is the
most-recently-merged one. -/
theorem mergeVideos_key_unique_witness :
    lastWithKey ([itemA] ++ [itemADup]) (buildVideoKey itemADup) = some itemADup :=
  (mergeVideos_key_unique [itemA] [itemADup]).2.1 itemADup (by decide)

/-- C3.  After any merge — the incremental map-based merge of
`addChannel` as well as the full refresh of `fetchVideos` — the
resulting feed is non-increasing in the published timestamp, whatever
the per-channel inputs and their order. -/
theorem merge_and_refresh_sorted (prevItems fetched : List FeedItem)
    (results : List (Except Unit (List FeedItem))) :
    SortedDesc (mergeVideos prevItems fetched)
    ∧ SortedDesc (fetchVideosModel results) :=
  ⟨sortDesc_sorted _, sortDesc_sorted _⟩

/-- C5.  A channel whose orchestration throws is caught at its own
boundary of the refresh loop and contributes nothing, leaving every
other channel's items untouched (first conjunct, at any position of the
channel list); in the concrete scenario, channel A throwing and channel
B succeeding with three items yields exactly B's three items sorted
descending, with no error escaping `fetchVideosModel` (its result type
has no error outcome). -/
theorem fetchVideos_error_isolation :
    (∀ (pre post : List (Except Unit (List FeedItem))) (e : Unit),
        fetchVideosModel (pre ++ Except.error e :: post)
          = fetchVideosModel (pre ++ post))
    ∧ fetchVideosModel [Except.error (), Except.ok [itemB1, itemB2, itemB3]]
        = [itemB2, itemB3, itemB1] := by
  constructor
  · intro pre post e
    unfold fetchVideosModel
    congr 1
    simp [channelResultItems]
  · decide

/-- C4 (amended).  Provided the per-channel results of a full refresh
contain no two items with the same video key, the refresh — which
replaces the previous snapshot wholesale by concatenating and sorting —
produces exactly the Merge Engine's composite-key merge of those
results against an empty seed. -/
theorem fetchVideos_refines_merge (results : List (Except Unit (List FeedItem)))
    (hnd : ((results.map channelResultItems).flatten.map buildVideoKey).Nodup) :
    fetchVideosModel results
      = mergeVideos [] (results.map channelResultItems).flatten := by
  have h := (feedMapOfList_values_fresh (results.map channelResultItems).flatten []
      hnd (by simp)).2
  simp only [List.map_nil, List.nil_append] at h
  show sortDesc (results.map channelResultItems).flatten
      = sortDesc ((feedMapOfList (feedMapOfList [] [])
          (results.map channelResultItems).flatten).map Prod.snd)
  rw [show feedMapOfList [] ([] : List FeedItem) = [] from rfl, h]

/-- Witness for the amended C4 at a concrete two-channel refresh with
pairwise distinct composite keys. -/
theorem fetchVideos_refines_merge_witness :
    fetchVideosModel [Except.ok [itemB1], Except.ok [itemB2, itemB3]]
      = mergeVideos []
          (([Except.ok [itemB1], Except.ok [itemB2, itemB3]].map
              channelResultItems).flatten) :=
  fetchVideos_refines_merge [Except.ok [itemB1], Except.ok [itemB2, itemB3]]
    (by decide)

/-- Counterexample to C4 as stated: a full refresh performs no
composite-key deduplication.  When one channel's fetch returns two
items with the same composite key, the refresh keeps both (it only
concatenates and sorts), while the Merge Engine's merge against an
empty seed keeps one — the two feeds differ. -/
theorem fetchVideos_no_dedup_cex :
    fetchVideosModel [Except.ok [itemA, itemADup]]
      ≠ mergeVideos []
          (([Except.ok [itemA, itemADup]].map channelResultItems).flatten) := by
  decide

/-- Counterexample to C2 as stated: `"banana"` contains no `"PT"`, so
the regex match is `null` — an unparseable duration — yet the
classification block computes 0 total seconds and labels the item
short-form with the `'Short'` label, not long-form with the generic
label. -/
theorem classifyDuration_unparseable_cex :
    durationGroups "banana" = none
    ∧ classifyDuration (some "banana") = ("Short", CKind.shorts) := by
  constructor
  · rfl
  · rfl

/-- C2 (amended).  An absent (or empty, hence falsy) duration string
defaults to long-form with the generic `'Video'` label; a present
duration string is classified purely by the total seconds the regex
match yields — minutes and seconds each defaulting to zero when their
group is absent or the match is `null` — so a total of at most 60
(which includes every unparseable string and every hours-only code,
both totalling zero) is labeled `'Short'`/short-form and a larger total
`'Video'`/long-form. -/
theorem classifyDuration_amended :
    classifyDuration none = ("Video", CKind.longForm)
    ∧ ∀ s : String, s ≠ "" →
        classifyDuration (some s)
          = if specTotalSeconds s ≤ 60 then ("Short", CKind.shorts)
            else ("Video", CKind.longForm) := by
  constructor
  · rfl
  · intro s hs
    have hempty : s.isEmpty = false := by
      cases h : s.isEmpty
      · rfl
      · exact absurd ((String.isEmpty_iff s).mp h) hs
    simp only [classifyDuration, specTotalSeconds, hempty, Bool.false_eq_true,
      if_false]

/-- Witness for the amended C2 at the concrete code `"PT5M"`
(300 seconds, classified long-form). -/
theorem classifyDuration_amended_witness :
    classifyDuration (some "PT5M")
      = if specTotalSeconds "PT5M" ≤ 60 then ("Short", CKind.shorts)
        else ("Video", CKind.longForm) :=
  classifyDuration_amended.2 "PT5M" (by decide)

theorem chunksOf50Fuel_length (fuel : Nat) :
    ∀ l : List String, l.length ≤ fuel →
      (chunksOf50Fuel fuel l).length = (l.length + 49) / 50 := by
  induction fuel with
  | zero =>
      intro l hl
      have hnil : l = [] := List.eq_nil_of_length_eq_zero (Nat.le_zero.mp hl)
      subst hnil
      rfl
  | succ fuel ih =>
      intro l hl
      cases l with
      | nil => rfl
      | cons x xs =>
          have hle : ((x :: xs).drop 50).length ≤ fuel := by
            rw [List.length_drop]
            simp only [List.length_cons] at hl ⊢
            omega
          simp only [chunksOf50Fuel, List.length_cons]
          rw [ih ((x :: xs).drop 50) hle]
          rw [List.length_drop]
          simp only [List.length_cons]
          omega

theorem chunksOf50_length (l : List String) :
    (chunksOf50 l).length = (l.length + 49) / 50 :=
  chunksOf50Fuel_length l.length l (Nat.le_refl _)

theorem runBatches_ok_count (api : BatchApi) :
    ∀ bs : List (List String), (∀ b ∈ bs, api b ≠ Except.error ()) →
      ∀ (acc : List (String × String)) (n : Nat),
        ∃ m, runBatches api bs acc n = Except.ok (m, n + bs.length) := by
  intro bs
  induction bs with
  | nil =>
      intro _ acc n
      exact ⟨acc, by simp [runBatches]⟩
  | cons b bs ih =>
      intro hok acc n
      have hb := hok b (List.mem_cons_self _ _)
      have htail : ∀ x ∈ bs, api x ≠ Except.error () :=
        fun x hx => hok x (List.mem_cons_of_mem _ hx)
      have hlen : n + 1 + bs.length = n + (b :: bs).length := by
        simp only [List.length_cons]
        omega
      cases hab : api b with
      | error e =>
          cases e
          exact absurd hab hb
      | ok payload =>
          cases payload with
          | none =>
              obtain ⟨m, hm⟩ := ih htail acc (n + 1)
              refine ⟨m, ?_⟩
              simp only [runBatches, hab]
              rw [hm, hlen]
          | some entries =>
              obtain ⟨m, hm⟩ :=
                ih htail (entries.foldl (fun m p => assocSet m p.1 p.2) acc) (n + 1)
              refine ⟨m, ?_⟩
              simp only [runBatches, hab]
              rw [hm, hlen]

theorem runBatches_skip_none (api : BatchApi) (b : List String)
    (hb : api b = Except.ok none) :
    ∀ (bs1 bs2 : List (List String)) (acc : List (String × String)) (n : Nat),
      runBatches api (bs1 ++ b :: bs2) acc n
        = runBatches api (bs1 ++ bs2) acc (n + 1) := by
  intro bs1
  induction bs1 with
  | nil =>
      intro bs2 acc n
      simp only [List.nil_append, runBatches, hb]
  | cons a bs1 ih =>
      intro bs2 acc n
      cases hab : api a with
      | error e =>
          simp only [List.cons_append, runBatches, hab]
      | ok payload =>
          cases payload with
          | none =>
              simp only [List.cons_append, runBatches, hab]
              exact ih bs2 acc (n + 1)
          | some entries =>
              simp only [List.cons_append, runBatches, hab]
              exact ih bs2 _ (n + 1)

/-- C6 (amended).  When no batch request throws, the batched duration
fetch issues exactly one request per batch of at most 50 identifiers,
i.e. ceil(N / 50) requests for N identifiers, and succeeds; and a batch
whose response carries no `items` (e.g. an upstream error body)
contributes no duration entries while the remaining batches still run
and the other batches' accumulated results are unaffected. -/
theorem fetchDurations_batching (api : BatchApi) (videoIds : List String)
    (hok : ∀ b ∈ chunksOf50 videoIds, api b ≠ Except.error ()) :
    (∃ m, fetchDurations api videoIds
        = Except.ok (m, (videoIds.length + 49) / 50))
    ∧ ∀ (bs1 bs2 : List (List String)) (b : List String)
        (acc : List (String × String)) (n : Nat),
        api b = Except.ok none →
        runBatches api (bs1 ++ b :: bs2) acc n
          = runBatches api (bs1 ++ bs2) acc (n + 1) := by
  constructor
  · obtain ⟨m, hm⟩ := runBatches_ok_count api (chunksOf50 videoIds) hok [] 0
    refine ⟨m, ?_⟩
    unfold fetchDurations
    rw [hm, Nat.zero_add, chunksOf50_length]
  · intro bs1 bs2 b acc n hb
    exact runBatches_skip_none api b hb bs1 bs2 acc n

/-- An upstream that always answers with an `items`-free body. -/
def apiAllNone : BatchApi := fun _ => Except.ok none

/-- Three concrete video ids (one batch). -/
def idsABC : List String := ["a", "b", "c"]

/-- Witness for the amended C6 at a concrete one-batch fetch. -/
theorem fetchDurations_batching_witness :
    (∃ m, fetchDurations apiAllNone idsABC
        = Except.ok (m, (idsABC.length + 49) / 50))
    ∧ ∀ (bs1 bs2 : List (List String)) (b : List String)
        (acc : List (String × String)) (n : Nat),
        apiAllNone b = Except.ok none →
        runBatches apiAllNone (bs1 ++ b :: bs2) acc n
          = runBatches apiAllNone (bs1 ++ bs2) acc (n + 1) :=
  fetchDurations_batching apiAllNone idsABC
    (by intro b hb; simp [apiAllNone])

/-- Sixty concrete video ids (two batches: 50 and 10). -/
def ids60 : List String := (List.range 60).map (fun n => toString n)

/-- An upstream whose request for the first (length-50) batch throws
and whose other requests succeed with one duration entry per id. -/
def apiFailFirst : BatchApi := fun b =>
  if b.length = 50 then Except.error ()
  else Except.ok (some (b.map (fun i => (i, "PT5M"))))

/-- Counterexample to C6 as stated: the batch loop has no per-batch
try/catch, so a batch request that throws aborts the whole duration
fetch — the second batch, whose own request would succeed (second
conjunct), is never issued and no accumulated results survive, instead
of the other batches' results being left intact. -/
theorem fetchDurations_abort_cex :
    fetchDurations apiFailFirst ids60 = Except.error ()
    ∧ apiFailFirst (ids60.drop 50)
        = Except.ok (some ((ids60.drop 50).map (fun i => (i, "PT5M")))) := by
  constructor
  · rfl
  · rfl

/-- C7.  The Feed Cache read returns the stored snapshot exactly when
its capture timestamp is strictly less than 24 hours (86400000 ms) old
and the empty feed at or beyond 24 hours (or when nothing is stored);
the write persists `{ videos, timestamp: now }` whenever the snapshot
is non-empty and leaves the store untouched for an empty snapshot. -/
theorem feedCache_spec (d : CachedData) (store : Option CachedData)
    (vs : List FeedItem) (now : Int) :
    (now - d.timestamp < 86400000 → cacheRead (some d) now = d.videos)
    ∧ (86400000 ≤ now - d.timestamp → cacheRead (some d) now = [])
    ∧ cacheRead none now = []
    ∧ (vs ≠ [] → cacheWrite store vs now = some ⟨vs, now⟩)
    ∧ cacheWrite store [] now = store := by
  refine ⟨?_, ?_, rfl, ?_, ?_⟩
  · intro h
    show (if d.timestamp > now - 86400000 then d.videos else []) = d.videos
    rw [if_pos (by omega)]
  · intro h
    show (if d.timestamp > now - 86400000 then d.videos else []) = []
    rw [if_neg (by omega)]
  · intro h
    unfold cacheWrite
    rw [if_pos (by simpa using List.length_pos.mpr h)]
  · unfold cacheWrite
    simp

/-- Witness for C7: a 1000 ms old snapshot is served back, and writing
a non-empty feed stores it with the fresh timestamp. -/
theorem feedCache_spec_witness :
    cacheRead (some ⟨[itemA], 1000⟩) 2000 = [itemA]
    ∧ cacheWrite none [itemA] 5000 = some ⟨[itemA], 5000⟩ :=
  ⟨(feedCache_spec ⟨[itemA], 1000⟩ none [itemA] 2000).1 (by decide),
   (feedCache_spec ⟨[itemA], 1000⟩ none [itemA] 5000).2.2.2.1 (by decide)⟩

/-- C8.  With `timeRangeDays = 0` both time filters admit every item
whatever its published timestamp (far past or future); with
`timeRangeDays > 0` both admit an item exactly when its published
timestamp is at or after the computed cutoff (now minus that many
days), the boundary timestamp included. -/
theorem timeFilter_spec (timeRangeDays : Nat) (cutoff pub : Int) :
    (timeRangeDays = 0 →
        timeFilterVideo timeRangeDays cutoff pub = true
        ∧ timeFilterCommunity timeRangeDays cutoff pub = true)
    ∧ (0 < timeRangeDays →
        ((timeFilterVideo timeRangeDays cutoff pub = true ↔ cutoff ≤ pub)
        ∧ (timeFilterCommunity timeRangeDays cutoff pub = true ↔ cutoff ≤ pub))) := by
  constructor
  · rintro rfl
    constructor
    · simp [timeFilterVideo]
    · simp [timeFilterCommunity]
  · intro h
    have h0 : timeRangeDays ≠ 0 := by omega
    constructor
    · simp only [timeFilterVideo, Bool.not_eq_true']
      simp [h0]
    · simp [timeFilterCommunity, h0]

/-- Witness for C8 at the exact boundary: an item published exactly at
the cutoff is admitted by both filters when the window is 30 days. -/
theorem timeFilter_spec_witness :
    (timeFilterVideo 30 500 500 = true ↔ (500 : Int) ≤ 500)
    ∧ (timeFilterCommunity 30 500 500 = true ↔ (500 : Int) ≤ 500) :=
  (timeFilter_spec 30 500 500).2 (by decide)

/-- C9 (amended).  Adding a channel whose identifier already exists
leaves the registry unchanged — a silent no-op on the normal return
path, with no `DuplicateChannel` (or any other) failure signalled;
otherwise the channel is appended with default preferences long-form
on, short-form on, community off; and the at-most-one-entry-per-id
invariant is preserved either way. -/
theorem addChannel_registry_spec (channels : List Channel)
    (cid cname cthumb cuploads : String) :
    ((∃ c ∈ channels, c.id = cid) →
        addChannelRegistry channels cid cname cthumb cuploads = channels)
    ∧ ((¬∃ c ∈ channels, c.id = cid) →
        addChannelRegistry channels cid cname cthumb cuploads
          = channels ++ [⟨cid, cname, cthumb, cuploads, ⟨true, true, false⟩⟩])
    ∧ ((channels.map Channel.id).Nodup →
        ((addChannelRegistry channels cid cname cthumb cuploads).map
            Channel.id).Nodup) := by
  have hdef : addChannelRegistry channels cid cname cthumb cuploads
      = (match channels.find? (fun c => c.id == cid) with
        | some _ => channels
        | none =>
            channels ++ [⟨cid, cname, cthumb, cuploads, ⟨true, true, false⟩⟩]) :=
    rfl
  cases hf : channels.find? (fun c => c.id == cid) with
  | some c =>
      have hex : ∃ c ∈ channels, c.id = cid := by
        refine ⟨c, List.mem_of_find?_eq_some hf, ?_⟩
        have := List.find?_some hf
        simpa using this
      refine ⟨fun _ => by rw [hdef, hf], fun hne => absurd hex hne, fun hnd => ?_⟩
      rw [hdef, hf]
      exact hnd
  | none =>
      have hnotin : cid ∉ channels.map Channel.id := by
        intro hmem
        rcases List.mem_map.mp hmem with ⟨c, hc, hcid⟩
        have := List.find?_eq_none.mp hf c hc
        simp [hcid] at this
      have hnoex : ¬∃ c ∈ channels, c.id = cid := by
        rintro ⟨c, hc, hcid⟩
        exact hnotin (hcid ▸ List.mem_map_of_mem Channel.id hc)
      refine ⟨fun hex => absurd hex hnoex, fun _ => by rw [hdef, hf], fun hnd => ?_⟩
      rw [hdef, hf]
      simp only [List.map_append, List.map_cons, List.map_nil]
      refine List.Nodup.append hnd (List.nodup_singleton _) ?_
      intro a ha hb
      rw [List.mem_singleton.mp hb] at ha
      exact hnotin ha

/-- Witness for the amended C9: adding to an empty registry appends the
entry with default preferences. -/
theorem addChannel_registry_spec_witness :
    addChannelRegistry [] "c9" "Nine" "t9" "u9"
      = [] ++ [⟨"c9", "Nine", "t9", "u9", ⟨true, true, false⟩⟩] :=
  (addChannel_registry_spec [] "c9" "Nine" "t9" "u9").2.1 (by simp)

/-- A registry entry already present, with non-default preferences. -/
def chanOne : Channel := ⟨"c1", "One", "thumb1", "uploads1", ⟨true, false, true⟩⟩

/-- Counterexample to C9 as stated: re-adding the identifier `"c1"`
does not fail with a `DuplicateChannel` error — the operation returns
through its ordinary path (whose result type has no error outcome at
all) and simply leaves the registry unchanged. -/
theorem addChannel_duplicate_cex :
    addChannelRegistry [chanOne] "c1" "Other" "thumb2" "uploads2" = [chanOne] := by
  rfl

/-- C10 (amended).  A community post's id is the truncated 50-character
prefix of its text content whenever that content is present and
non-empty — even when the upstream record carries a native id — and the
native id is used only when the content is absent or empty. -/
theorem communityPostId_spec (d : String) (nid : String) :
    communityPostId none nid = nid
    ∧ communityPostId (some "") nid = nid
    ∧ (d ≠ "" → communityPostId (some d) nid = String.mk (d.data.take 50)) := by
  refine ⟨rfl, rfl, ?_⟩
  intro hd
  have hdata : d.data ≠ [] := fun h => hd (String.ext h)
  show (match d.data.take 50 with
    | [] => nid
    | c :: cs => String.mk (c :: cs)) = String.mk (d.data.take 50)
  cases hl : d.data with
  | nil => exact absurd hl hdata
  | cons c cs => simp

/-- Witness for the amended C10 at concrete non-empty content. -/
theorem communityPostId_spec_witness :
    communityPostId (some "hello") "nativeid"
      = String.mk ("hello".data.take 50) :=
  (communityPostId_spec "hello" "nativeid").2.2 (by decide)

/-- Counterexample to C10 as stated: the upstream activity record
always carries a native id, yet with non-empty text content the code
synthesizes the item id from the truncated content prefix instead of
using that native id. -/
theorem communityPostId_native_cex :
    communityPostId (some "hello world") "nativeid" = "hello world"
    ∧ "hello world" ≠ "nativeid" := by
  constructor
  · rfl
  · decide
